import Mathlib

/-!
Shallow embedding of the `smart_scripts` repository
(`src/doc_writer/add_doxygen.py` and `src/pdf_cleaner/pdf_text_cleaner.py`).

Python strings are modelled as `List Char`.  The remote OpenAI chat service
is modelled as an oracle: for `add_doxygen_multi` it maps the submitted code
text and the call index (0 for the initial request, `i ≥ 1` for the `i`-th
continuation request; the growing chat history is a function of these) to a
`GptResponse`; for the pdf cleaner it maps the chunk index to either a
response text or `none` (an exception raised by the API call).

`tiktoken` encoding/decoding is modelled with the character-token model:
one token per character, so `encode`/`decode` are the identity on the
character list.  File writes are modelled by returning `Option (List Char)`:
`some s` means a file with content `s` is written, `none` means no file is
written at all.
-/

/-- Python's ASCII whitespace class (the `\s` regex class and `str.strip`). -/
def isPyWs (c : Char) : Bool :=
  c == ' ' || c == '\t' || c == '\n' || c == '\r' ||
  c == Char.ofNat 11 || c == Char.ofNat 12

/-- The character `{` (written via its code point). -/
def lbrace : Char := Char.ofNat 123

/-- The character `}` (written via its code point). -/
def rbrace : Char := Char.ofNat 125

/-- Whether the pattern (first argument) occurs at the very start of the
second argument; used to model one attempted match of a literal pattern at
the current scan position of Python's `str.replace` / `in`. -/
def leadsWith : List Char → List Char → Bool
  | [], _ => true
  | _ :: _, [] => false
  | p :: ps, c :: cs => p == c && leadsWith ps cs

/-- Python's substring test `pat in s`. -/
def containsSub (pat : List Char) : List Char → Bool
  | [] => pat.isEmpty
  | c :: cs => leadsWith pat (c :: cs) || containsSub pat cs

/-- Python's `s.split(chr(10))`: the list of lines, newline characters
removed; the result always has at least one element. -/
def splitNl : List Char → List (List Char)
  | [] => [[]]
  | c :: cs =>
    if c = '\n' then [] :: splitNl cs
    else
      match splitNl cs with
      | [] => [[c]]
      | l :: ls => (c :: l) :: ls

/-- Python's `(chr(10)).join(ls)`. -/
def joinNl : List (List Char) → List Char
  | [] => []
  | [l] => l
  | l :: ls => l ++ '\n' :: joinNl ls

/-- Python's `s.strip()`: drop leading and trailing whitespace. -/
def pyStrip (s : List Char) : List Char :=
  ((s.dropWhile isPyWs).reverse.dropWhile isPyWs).reverse

/-- Scanning core of Python's `str.replace`: left-to-right, non-overlapping;
after a match the scan resumes after the matched region and never rescans
the emitted replacement.  `fuel` is at least the length of the scanned text
at every call (each step consumes at least one character), so the `0` case
is never reached from `pyReplace`. -/
def replaceGoF (p : Char) (ps repl : List Char) : Nat → List Char → List Char
  | 0, s => s
  | _, [] => []
  | fuel + 1, c :: cs =>
    if leadsWith (p :: ps) (c :: cs) then
      repl ++ replaceGoF p ps repl fuel (cs.drop ps.length)
    else c :: replaceGoF p ps repl fuel cs

/-- Python's `s.replace(pat, repl)` for a non-empty pattern (every use in
the sources has a non-empty literal pattern; the empty-pattern case is
never exercised and is modelled as the identity). -/
def pyReplace (pat repl s : List Char) : List Char :=
  match pat with
  | [] => s
  | p :: ps => replaceGoF p ps repl s.length s

/-! ## doc_writer/add_doxygen.py -/

/-- `re.sub(r'[ \t]+', ' ', s)` scanning core: the flag records whether the
scan is currently inside a run of spaces/tabs (the run was already replaced
by one space). -/
def collapseWsGo : Bool → List Char → List Char
  | _, [] => []
  | inRun, c :: cs =>
    if c == ' ' || c == '\t' then
      if inRun then collapseWsGo true cs else ' ' :: collapseWsGo true cs
    else c :: collapseWsGo false cs

/-- `re.sub(r'[ \t]+', ' ', s)` (add_doxygen.py line 16). -/
def collapseWs (s : List Char) : List Char := collapseWsGo false s

/-- One attempted match of `\s*b\s*` (with `b` the brace) at the current
position: the greedy `\s*` runs are the maximal whitespace runs, and the
next character must be the brace.  Returns the rest of the text after the
matched region. -/
def braceMatch (b : Char) (l : List Char) : Option (List Char) :=
  match l.dropWhile isPyWs with
  | c :: t => if c == b then some (t.dropWhile isPyWs) else none
  | [] => none

/-- Scanning core of `re.sub(r'\s*B\s*', ' B ', s)` for a brace `B`
(add_doxygen.py lines 19-20).  `fuel` bounds the scanned length as in
`replaceGoF`. -/
def subBraceGoF (b : Char) : Nat → List Char → List Char
  | 0, s => s
  | _, [] => []
  | fuel + 1, c :: cs =>
    match braceMatch b (c :: cs) with
    | some rest => ' ' :: b :: ' ' :: subBraceGoF b fuel rest
    | none => c :: subBraceGoF b fuel cs

/-- `re.sub` around one brace character, see `subBraceGoF`. -/
def subBrace (b : Char) (s : List Char) : List Char := subBraceGoF b s.length s

/-- The index of the last newline inside the maximal whitespace run at the
front of the list, if any: the greedy-with-backtracking extent of `\s*`
followed by a final `\n` in the pattern `\n\s*\n`. -/
def lastNlIdx : List Char → Option Nat
  | [] => none
  | c :: cs =>
    if isPyWs c then
      match lastNlIdx cs with
      | some k => some (k + 1)
      | none => if c == '\n' then some 0 else none
    else none

/-- Scanning core of `re.sub(r'\n\s*\n', '\n', s)` (add_doxygen.py
line 23). -/
def subBlankGoF : Nat → List Char → List Char
  | 0, s => s
  | _, [] => []
  | fuel + 1, c :: cs =>
    if c == '\n' then
      match lastNlIdx cs with
      | some k => '\n' :: subBlankGoF fuel (cs.drop (k + 1))
      | none => c :: subBlankGoF fuel cs
    else c :: subBlankGoF fuel cs

/-- `re.sub(r'\n\s*\n', '\n', s)`, see `subBlankGoF`. -/
def subBlank (s : List Char) : List Char := subBlankGoF s.length s

/-- `clean_code_content` (add_doxygen.py lines 7-30): collapse runs of
spaces/tabs, normalize whitespace around braces to single spaces, collapse
blank lines, and strip every line. -/
def clean_code_content (code_content : List Char) : List Char :=
  let s1 := collapseWs code_content
  let s2 := subBrace lbrace s1
  let s3 := subBrace rbrace s2
  let s4 := subBlank s3
  joinNl ((splitNl s4).map pyStrip)

/-- Loop of `split_cpp_file` (add_doxygen.py lines 73-84): the state is the
accumulated `current_chunk` (a list of lines) and `current_length`; the
remaining lines are consumed in order and finished chunks are emitted as
newline-joined strings. -/
def sccLoop (max_length : Nat) :
    List (List Char) → Nat → List (List Char) → List (List Char)
  | current_chunk, _, [] =>
    if current_chunk.isEmpty then [] else [joinNl current_chunk]
  | current_chunk, current_length, line :: ls =>
    let line_length := line.length + 1
    if current_length + line_length > max_length ∨ rbrace ∈ line then
      joinNl current_chunk :: sccLoop max_length [line] line_length ls
    else
      sccLoop max_length (current_chunk ++ [line]) (current_length + line_length) ls

/-- `split_cpp_file` (add_doxygen.py lines 65-85). -/
def split_cpp_file (file_content : List Char) (max_length : Nat) :
    List (List Char) :=
  sccLoop max_length [] 0 (splitNl file_content)

/-- The same loop with the chunk-grouping made explicit: finished chunks
are kept as line groups instead of being newline-joined.  Used to reason
about line atomicity; `sccLoop` is pointwise the `joinNl` image of this. -/
def sccGroupsLoop (max_length : Nat) :
    List (List Char) → Nat → List (List Char) → List (List (List Char))
  | current_chunk, _, [] =>
    if current_chunk.isEmpty then [] else [current_chunk]
  | current_chunk, current_length, line :: ls =>
    let line_length := line.length + 1
    if current_length + line_length > max_length ∨ rbrace ∈ line then
      current_chunk :: sccGroupsLoop max_length [line] line_length ls
    else
      sccGroupsLoop max_length (current_chunk ++ [line]) (current_length + line_length) ls

/-- The line groups underlying `split_cpp_file`'s chunks. -/
def sccGroups (file_content : List Char) (max_length : Nat) :
    List (List (List Char)) :=
  sccGroupsLoop max_length [] 0 (splitNl file_content)

/-- The `finish_reason` value `'stop'`. -/
def stopReason : List Char := ("stop".toList)

/-- The continuation sentinel string `'//continue'` (add_doxygen.py
lines 180, 209, 241). -/
def contSent : List Char := ("//continue".toList)

/-- One response of the chat completion service: the message content and
the structural finish reason. -/
structure GptResponse where
  content : List Char
  finish_reason : List Char

/-- The chat service as an oracle: submitted code text and call index
(0 = initial request, `i ≥ 1` = `i`-th continuation request; the chat
history sent on call `i` is determined by the code text, the fixed prompts
and the service's own earlier replies, hence by these two arguments). -/
abbrev GptSvc : Type := List Char → Nat → GptResponse

/-- `'\n'.join(response_list)` followed by stripping the fenced code-block
delimiters, before the sentinel strip (add_doxygen.py lines 236-239). -/
def preStripped (response_list : List (List Char)) : List Char :=
  pyReplace ("```".toList) [] (pyReplace ("```cpp".toList) [] (joinNl response_list))

/-- Merging of all responses into one output (add_doxygen.py lines
235-241): join on newlines, strip code fences, then strip every
`'//continue'` occurrence by one `str.replace` pass. -/
def mergeResponses (response_list : List (List Char)) : List Char :=
  pyReplace contSent [] (preStripped response_list)

/-- The continuation `while` loop of `add_doxygen_multi` (add_doxygen.py
lines 206-233).  `rem` is the number of continuation rounds still allowed
(`max_iter - iter`), `idx` the index of the next service call, `resps` the
accumulated `response_list`.  Returns the final `response_list` (`none` on
a non-`'stop'` finish reason, where the Python returns `None`) together
with the number of service calls made inside the loop. -/
def loopGo (svc : GptSvc) (code : List Char) :
    Nat → Nat → List (List Char) → Option (List (List Char)) × Nat
  | 0, _, resps => (some resps, 0)
  | rem + 1, idx, resps =>
    if containsSub contSent (resps.getLastD []) then
      let r := svc code idx
      if r.finish_reason = stopReason then
        let p := loopGo svc code rem (idx + 1) (resps ++ [r.content])
        (p.1, p.2 + 1)
      else (none, 1)
    else (some resps, 0)

/-- `add_doxygen_multi` (add_doxygen.py lines 167-243), instrumented with
the total number of service calls made.  The first call fails fatally on a
non-`'stop'` finish reason; otherwise up to `max_iter = 5` continuation
rounds run while the last response contains the sentinel. -/
def add_doxygen_multi_run (svc : GptSvc) (code_content : List Char) :
    Option (List Char) × Nat :=
  let r0 := svc code_content 0
  if r0.finish_reason = stopReason then
    let p := loopGo svc code_content 5 1 [r0.content]
    ((p.1).map mergeResponses, p.2 + 1)
  else (none, 1)

/-- `add_doxygen_multi`'s return value (`none` models Python's `None`). -/
def add_doxygen_multi (svc : GptSvc) (code_content : List Char) :
    Option (List Char) :=
  (add_doxygen_multi_run svc code_content).1

/-- `process_cpp_file` (add_doxygen.py lines 261-272): clean the code,
transform it, and write the output file only when `add_doxygen_multi`
returned a truthy (non-`None`, non-empty) string.  The result is the
content written to the output file, `none` when no file is written. -/
def process_cpp_file (svc : GptSvc) (cpp_code : List Char) :
    Option (List Char) :=
  let cleaned := clean_code_content cpp_code
  match add_doxygen_multi svc cleaned with
  | none => none
  | some doc_code => if doc_code.isEmpty then none else some doc_code

/-- The text `process_cpp_file` submits to the transform service
(add_doxygen.py lines 268-269): the cleaned code content. -/
def process_sent_text (cpp_code : List Char) : List Char :=
  clean_code_content cpp_code

/-- Output-path derivation in `main` (add_doxygen.py line 302):
`input_cpp_file.replace(".h", "_doxygen.h")`. -/
def derive_output_path (input_cpp_file : List Char) : List Char :=
  pyReplace (".h".toList) ("_doxygen.h".toList) input_cpp_file

/-! ## pdf_cleaner/pdf_text_cleaner.py -/

/-- `sentence_breaks` (pdf_text_cleaner.py line 51). -/
def sentence_breaks : List Char := ['.', '!', '?', ';', ':']

/-- Python's `s.rfind(c)` for a single character: the highest index of `c`
in `s`, or `-1` when absent. -/
def rfindChar (c : Char) : List Char → Int
  | [] => -1
  | x :: xs =>
    let r := rfindChar c xs
    if 0 ≤ r then r + 1 else if x == c then 0 else -1

/-- Loop body of the `last_break_pos` computation (pdf_text_cleaner.py
lines 66-69): keep the larger of the accumulator and `rfind`'s result. -/
def lbStep (chunk_text : List Char) (acc : Int) (t : Char) : Int :=
  if rfindChar t chunk_text > acc then rfindChar t chunk_text else acc

/-- The `last_break_pos` computation (pdf_text_cleaner.py lines 65-69):
fold over the break tokens, keeping the largest `rfind` result, starting
from `-1`. -/
def lastBreakPos (chunk_text : List Char) : Int :=
  sentence_breaks.foldl (lbStep chunk_text) (-1)

/-- The `while` loop of `split_text_by_tokens` (pdf_text_cleaner.py lines
54-81) under the character-token model: `rem` is the remaining token list
(`tokens[current_pos:]`), the window is its first `max_tokens` tokens.
`fuel` exceeds the remaining length at every call whenever
`max_tokens ≥ 1` (each round consumes at least one token), making the `0`
case unreachable from `split_text_by_tokens`; with `max_tokens = 0` the
Python loop does not terminate. -/
def sttGo (max_tokens : Nat) : Nat → List Char → List (List Char)
  | 0, _ => []
  | fuel + 1, rem =>
    if rem.isEmpty then []
    else
      let chunk_text := rem.take max_tokens
      if rem.length ≤ max_tokens then [chunk_text]
      else
        let b := lastBreakPos chunk_text
        if b = -1 then chunk_text :: sttGo max_tokens fuel (rem.drop max_tokens)
        else (chunk_text.take (b + 1).toNat) :: sttGo max_tokens fuel (rem.drop ((b + 1).toNat))

/-- `split_text_by_tokens` (pdf_text_cleaner.py lines 46-83) under the
character-token model (`used_tokens` of a decoded prefix is its length). -/
def split_text_by_tokens (text : List Char) (max_tokens : Nat) : List (List Char) :=
  sttGo max_tokens (text.length + 1) text

/-- `clean_text_with_gpt` (pdf_text_cleaner.py lines 98-126).  The service
call is modelled by its outcome: `some content` for a successful response,
`none` for a raised exception; on exception the RAW INPUT TEXT is returned
(line 126) together with the token count either way. -/
def clean_text_with_gpt (svcResult : Option (List Char)) (text : List Char) :
    List Char × Nat :=
  match svcResult with
  | some content => (pyStrip content, text.length)
  | none => (text, text.length)

/-- `main` of pdf_text_cleaner.py (lines 128-181), restricted to the
observable output file: every chunk is cleaned (the per-chunk service
outcome indexed by chunk position) and the newline-join of the cleaned
chunks is always written to the output file. -/
def pdf_cleaner_main (svc : Nat → Option (List Char)) (text : List Char)
    (max_tokens : Nat) : Option (List Char) :=
  let chunks := split_text_by_tokens text max_tokens
  let cleaned := chunks.enum.map (fun ic => (clean_text_with_gpt (svc ic.1) ic.2).1)
  some (joinNl cleaned)

/-- `k` concatenated copies of the continuation sentinel. -/
def sentRep : Nat → List Char
  | 0 => []
  | k + 1 => contSent ++ sentRep k

/-- The final sentinel-removing pass of `mergeResponses`. -/
def sentStrip (s : List Char) : List Char := pyReplace contSent [] s

/-- Check that every occurrence of two consecutive slashes in the text
starts a full `'//continue'` occurrence. -/
def ssOK : List Char → Bool
  | c1 :: c2 :: rest =>
    (!(c1 == '/' && c2 == '/') || leadsWith contSent (c1 :: c2 :: rest)) &&
      ssOK (c2 :: rest)
  | _ => true


/-- The first line of a document. -/
def firstLine (content : List Char) : List Char := (splitNl content).headD []


/-! ## Stub services used in concrete scenarios -/

/-- A stub service whose every response is cut off by the output-token
limit (`finish_reason` is `'length'`). -/
def svcLen : GptSvc := fun _ _ => ⟨("x").toList, ("length").toList⟩

/-- A stub service that finishes normally with a sentinel-free reply. -/
def svcDone : GptSvc := fun _ _ => ⟨("done").toList, stopReason⟩

/-- A stub service whose first reply contains the continuation sentinel in
a splice-prone middle position and whose follow-up reply is clean. -/
def svcEcho : GptSvc := fun _ n =>
  if n = 0 then ⟨("//cont//continueinue").toList, stopReason⟩
  else ⟨("done").toList, stopReason⟩

/-- A stub service that always reports success and always appends the
continuation sentinel, i.e. always signals incompleteness. -/
def svcAlwaysContinue : GptSvc := fun _ _ => ⟨contSent, stopReason⟩


/-! ## Basic lemmas about the string model -/

theorem leadsWith_iff (p l : List Char) : leadsWith p l = true ↔ ∃ t, l = p ++ t := by
  induction p generalizing l with
  | nil => simp [leadsWith]
  | cons x ps ih =>
    cases l with
    | nil => simp [leadsWith]
    | cons c cs =>
      simp only [leadsWith, Bool.and_eq_true, beq_iff_eq]
      constructor
      · rintro ⟨rfl, h⟩
        obtain ⟨t, rfl⟩ := (ih cs).1 h
        exact ⟨t, rfl⟩
      · rintro ⟨t, ht⟩
        simp only [List.cons_append, List.cons.injEq] at ht
        obtain ⟨rfl, rfl⟩ := ht
        exact ⟨rfl, (ih _).2 ⟨t, rfl⟩⟩

theorem containsSub_exists (pat l : List Char) (h : containsSub pat l = true) :
    ∃ a b, l = a ++ pat ++ b := by
  induction l with
  | nil =>
    simp only [containsSub, List.isEmpty_iff] at h
    exact ⟨[], [], by simp [h]⟩
  | cons c cs ih =>
    simp only [containsSub, Bool.or_eq_true] at h
    rcases h with h | h
    · obtain ⟨t, ht⟩ := (leadsWith_iff _ _).1 h
      exact ⟨[], t, by simp [ht]⟩
    · obtain ⟨a, b, rfl⟩ := ih h
      exact ⟨c :: a, b, rfl⟩

theorem splitNl_ne_nil (s : List Char) : splitNl s ≠ [] := by
  cases s with
  | nil => simp [splitNl]
  | cons c cs =>
    simp only [splitNl]
    split
    · simp
    · split <;> simp

theorem joinNl_cons_ne (l : List Char) (ls : List (List Char)) (h : ls ≠ []) :
    joinNl (l :: ls) = l ++ '\n' :: joinNl ls := by
  cases ls with
  | nil => exact absurd rfl h
  | cons x xs => rfl

theorem joinNl_append (as bs : List (List Char)) (ha : as ≠ []) (hb : bs ≠ []) :
    joinNl (as ++ bs) = joinNl as ++ '\n' :: joinNl bs := by
  induction as with
  | nil => exact absurd rfl ha
  | cons a as ih =>
    cases as with
    | nil =>
      rw [List.singleton_append, joinNl_cons_ne _ _ hb]
      rfl
    | cons a2 as' =>
      rw [List.cons_append, joinNl_cons_ne _ _ (by simp),
        joinNl_cons_ne _ _ (by simp), ih (by simp)]
      simp

theorem joinNl_splitNl (s : List Char) : joinNl (splitNl s) = s := by
  induction s with
  | nil => rfl
  | cons c cs ih =>
    by_cases hc : c = '\n'
    · subst hc
      rw [show splitNl ('\n' :: cs) = [] :: splitNl cs from by simp [splitNl],
        joinNl_cons_ne _ _ (splitNl_ne_nil cs)]
      simp [ih]
    · have h1 : splitNl (c :: cs) =
          match splitNl cs with
          | [] => [[c]]
          | l :: ls => (c :: l) :: ls := by
        simp [splitNl, hc]
      cases hcs : splitNl cs with
      | nil => exact absurd hcs (splitNl_ne_nil cs)
      | cons l ls =>
        rw [hcs] at h1
        rw [h1]
        cases ls with
        | nil =>
          rw [hcs] at ih
          simpa [joinNl] using congrArg (c :: ·) ih
        | cons l2 ls2 =>
          rw [hcs] at ih
          rw [joinNl_cons_ne _ _ (by simp)] at ih
          rw [joinNl_cons_ne _ _ (by simp)]
          simpa using congrArg (c :: ·) ih

theorem replaceGoF_nil (p : Char) (ps repl : List Char) (f : Nat) :
    replaceGoF p ps repl f [] = [] := by cases f <;> rfl

theorem replaceGoF_fuel (p : Char) (ps repl : List Char) :
    ∀ f1 f2 s, s.length ≤ f1 → s.length ≤ f2 →
      replaceGoF p ps repl f1 s = replaceGoF p ps repl f2 s := by
  intro f1
  induction f1 with
  | zero =>
    intro f2 s h1 _
    have hs : s = [] := List.length_eq_zero.1 (Nat.le_zero.1 h1)
    subst hs
    simp [replaceGoF_nil]
  | succ n ih =>
    intro f2 s h1 h2
    cases s with
    | nil => simp [replaceGoF_nil]
    | cons c cs =>
      cases f2 with
      | zero => simp at h2
      | succ m =>
        have hcs1 : cs.length ≤ n := by simpa using h1
        have hcs2 : cs.length ≤ m := by simpa using h2
        simp only [replaceGoF]
        by_cases h : leadsWith (p :: ps) (c :: cs) = true
        · rw [if_pos h, if_pos h]
          have hd : (cs.drop ps.length).length ≤ cs.length := by
            simp [List.length_drop]
          rw [ih m (cs.drop ps.length) (le_trans hd hcs1) (le_trans hd hcs2)]
        · rw [if_neg h, if_neg h, ih m cs hcs1 hcs2]

theorem pyReplace_cons (p : Char) (ps repl : List Char) (c : Char) (cs : List Char) :
    pyReplace (p :: ps) repl (c :: cs) =
      if leadsWith (p :: ps) (c :: cs) then
        repl ++ pyReplace (p :: ps) repl (cs.drop ps.length)
      else c :: pyReplace (p :: ps) repl cs := by
  show replaceGoF p ps repl (cs.length + 1) (c :: cs) = _
  simp only [replaceGoF]
  by_cases h : leadsWith (p :: ps) (c :: cs) = true
  · rw [if_pos h, if_pos h]
    congr 1
    exact replaceGoF_fuel p ps repl cs.length (cs.drop ps.length).length _
      (by simp [List.length_drop]) le_rfl
  · rw [if_neg h, if_neg h]
    rfl

/-! ## Lemmas about `split_cpp_file` -/

theorem sccLoop_eq_groups (m : Nat) :
    ∀ (ls cur : List (List Char)) (len : Nat),
      sccLoop m cur len ls = (sccGroupsLoop m cur len ls).map joinNl := by
  intro ls
  induction ls with
  | nil =>
    intro cur len
    simp only [sccLoop, sccGroupsLoop]
    split
    · simp
    · simp
  | cons l ls ih =>
    intro cur len
    simp only [sccLoop, sccGroupsLoop]
    split
    · simp [ih]
    · exact ih _ _

theorem sccGroupsLoop_join (m : Nat) :
    ∀ (ls cur : List (List Char)) (len : Nat),
      (sccGroupsLoop m cur len ls).flatten = cur ++ ls := by
  intro ls
  induction ls with
  | nil =>
    intro cur len
    simp only [sccGroupsLoop]
    split
    · next h => simp [List.isEmpty_iff.1 h]
    · simp
  | cons l ls ih =>
    intro cur len
    simp only [sccGroupsLoop]
    split
    · simp [ih]
    · simp [ih]

theorem sccGroupsLoop_ne_nil (m : Nat) :
    ∀ (ls cur : List (List Char)) (len : Nat), cur ≠ [] →
      ∀ g ∈ sccGroupsLoop m cur len ls, g ≠ [] := by
  intro ls
  induction ls with
  | nil =>
    intro cur len hcur g hg
    simp only [sccGroupsLoop] at hg
    rw [if_neg (by simpa [List.isEmpty_iff] using hcur)] at hg
    simp at hg
    subst hg
    exact hcur
  | cons l ls ih =>
    intro cur len hcur g hg
    simp only [sccGroupsLoop] at hg
    split at hg
    · rcases List.mem_cons.1 hg with rfl | hg
      · exact hcur
      · exact ih _ _ (by simp) g hg
    · exact ih _ _ (by simp) g hg

theorem joinNl_map_join (gs : List (List (List Char))) (hne : gs ≠ [])
    (hg : ∀ g ∈ gs, g ≠ []) : joinNl (gs.map joinNl) = joinNl gs.flatten := by
  induction gs with
  | nil => exact absurd rfl hne
  | cons g gs ih =>
    cases gs with
    | nil => simp [joinNl]
    | cons g2 gs2 =>
      have hgne : g ≠ [] := hg g (by simp)
      have hj : (g2 :: gs2).flatten ≠ [] := by
        have : g2 ≠ [] := hg g2 (by simp)
        cases g2 with
        | nil => exact absurd rfl this
        | cons x xs => simp
      rw [List.map_cons, joinNl_cons_ne _ _ (by simp),
        ih (by simp) (fun g hgm => hg g (by simp [hgm])),
        show (g :: g2 :: gs2).flatten = g ++ (g2 :: gs2).flatten from rfl,
        joinNl_append _ _ hgne hj]

/-! ## Lemmas about `rfind` and `last_break_pos` -/

theorem rfindChar_cons (c x : Char) (xs : List Char) :
    rfindChar c (x :: xs) =
      if 0 ≤ rfindChar c xs then rfindChar c xs + 1
      else if x == c then 0 else -1 := rfl

theorem rfind_cases (c : Char) (l : List Char) :
    rfindChar c l = -1 ∨ 0 ≤ rfindChar c l := by
  induction l with
  | nil => left; rfl
  | cons x xs ih =>
    rw [rfindChar_cons]
    rcases ih with h | h
    · rw [h, if_neg (by omega : ¬(0 : Int) ≤ -1)]
      by_cases hx : (x == c) = true
      · right; rw [if_pos hx]
      · left; rw [if_neg hx]
    · right
      rw [if_pos h]
      omega

theorem rfind_neg1_iff (c : Char) (l : List Char) :
    rfindChar c l = -1 ↔ c ∉ l := by
  induction l with
  | nil => simp [rfindChar]
  | cons x xs ih =>
    rw [rfindChar_cons]
    simp only [List.mem_cons]
    rcases rfind_cases c xs with h | h
    · rw [h, if_neg (by omega : ¬(0 : Int) ≤ -1)]
      by_cases hxc : (x == c) = true
      · rw [if_pos hxc]
        simp only [beq_iff_eq] at hxc
        constructor
        · intro h0; omega
        · intro hm; exact absurd (Or.inl hxc.symm) hm
      · rw [if_neg hxc]
        simp only [beq_iff_eq] at hxc
        constructor
        · intro _ hm
          rcases hm with he | hmem
          · exact hxc he.symm
          · exact (ih.1 h) hmem
        · intro _; rfl
    · rw [if_pos h]
      constructor
      · intro hc
        exact absurd hc (by omega)
      · intro hm
        have hne : c ∉ xs := fun hmem => hm (Or.inr hmem)
        have h2 := ih.2 hne
        omega

theorem rfind_decomp (c : Char) (l : List Char) (h : rfindChar c l ≠ -1) :
    ∃ a b, l = a ++ c :: b ∧ (a.length : Int) = rfindChar c l ∧ c ∉ b := by
  induction l with
  | nil => exact absurd rfl h
  | cons x xs ih =>
    rcases rfind_cases c xs with hx | hx
    · have hcxs : c ∉ xs := (rfind_neg1_iff c xs).1 hx
      have hxc : x = c := by
        by_contra hxc
        have : rfindChar c (x :: xs) = -1 := by
          rw [rfindChar_cons, hx, if_neg (by omega : ¬(0 : Int) ≤ -1),
            if_neg (by simp [beq_iff_eq]; exact hxc)]
        exact h this
      subst hxc
      refine ⟨[], xs, rfl, ?_, hcxs⟩
      rw [rfindChar_cons, hx, if_neg (by omega : ¬(0 : Int) ≤ -1), if_pos (by simp)]
      rfl
    · obtain ⟨a, b, rfl, ha, hb⟩ := ih (by omega)
      refine ⟨x :: a, b, rfl, ?_, hb⟩
      rw [rfindChar_cons, if_pos hx, List.length_cons]
      omega

theorem rfind_ge_append (c : Char) (u b : List Char) (h : c ∈ b) :
    (u.length : Int) ≤ rfindChar c (u ++ b) := by
  induction u with
  | nil =>
    rcases rfind_cases c b with hx | hx
    · exact absurd ((rfind_neg1_iff c b).1 hx) (by simp [h])
    · simpa using hx
  | cons x u ih =>
    have h0 : (0 : Int) ≤ rfindChar c (u ++ b) :=
      le_trans (Int.natCast_nonneg u.length) ih
    have hstep : rfindChar c ((x :: u) ++ b) = rfindChar c (u ++ b) + 1 := by
      rw [List.cons_append, rfindChar_cons, if_pos h0]
    rw [hstep, List.length_cons]
    push_cast
    omega

theorem lbStep_ge (w : List Char) (acc : Int) (t : Char) : acc ≤ lbStep w acc t := by
  simp only [lbStep]
  split <;> omega

theorem lbStep_ge_rfind (w : List Char) (acc : Int) (t : Char) :
    rfindChar t w ≤ lbStep w acc t := by
  simp only [lbStep]
  split <;> omega

theorem foldl_lbStep_ge (w : List Char) :
    ∀ (ts : List Char) (acc : Int), acc ≤ List.foldl (lbStep w) acc ts := by
  intro ts
  induction ts with
  | nil => intro acc; simp
  | cons t ts ih =>
    intro acc
    exact le_trans (lbStep_ge w acc t) (ih (lbStep w acc t))

theorem foldl_lbStep_cases (w : List Char) :
    ∀ (ts : List Char) (acc : Int),
      List.foldl (lbStep w) acc ts = acc ∨
        ∃ t ∈ ts, List.foldl (lbStep w) acc ts = rfindChar t w := by
  intro ts
  induction ts with
  | nil => intro acc; left; rfl
  | cons t ts ih =>
    intro acc
    rcases ih (lbStep w acc t) with h | ⟨t2, ht2, h⟩
    · rw [List.foldl_cons, h]
      simp only [lbStep]
      split
      · exact Or.inr ⟨t, by simp, rfl⟩
      · exact Or.inl rfl
    · exact Or.inr ⟨t2, by simp [ht2], by rw [List.foldl_cons, h]⟩

theorem foldl_lbStep_bound (w : List Char) :
    ∀ (ts : List Char) (acc : Int) (t : Char), t ∈ ts →
      rfindChar t w ≤ List.foldl (lbStep w) acc ts := by
  intro ts
  induction ts with
  | nil => intro acc t ht; simp at ht
  | cons t0 ts ih =>
    intro acc t ht
    rcases List.mem_cons.1 ht with rfl | ht
    · exact le_trans (lbStep_ge_rfind w acc t) (foldl_lbStep_ge w ts _)
    · exact ih _ t ht

theorem lastBreakPos_neg1 (w : List Char) (h : lastBreakPos w = -1) :
    ∀ x ∈ w, x ∉ sentence_breaks := by
  intro x hx hxb
  have hb : rfindChar x w ≤ -1 := by
    rw [← h]
    exact foldl_lbStep_bound w sentence_breaks (-1) x hxb
  have : rfindChar x w = -1 := by
    rcases rfind_cases x w with h2 | h2
    · exact h2
    · omega
  exact absurd hx ((rfind_neg1_iff x w).1 this)

theorem lastBreakPos_decomp (w : List Char) (h : lastBreakPos w ≠ -1) :
    ∃ a br rest, w = a ++ br :: rest ∧ br ∈ sentence_breaks ∧
      (a.length : Int) = lastBreakPos w ∧ ∀ x ∈ rest, x ∉ sentence_breaks := by
  rcases foldl_lbStep_cases w sentence_breaks (-1) with h0 | ⟨t, ht, h0⟩
  · exact absurd h0 h
  · have hrt : rfindChar t w ≠ -1 := fun he => h (by rw [lastBreakPos, h0, he])
    obtain ⟨a, b, rfl, ha, hb⟩ := rfind_decomp t _ hrt
    refine ⟨a, t, b, rfl, ht, by rw [lastBreakPos, h0, ha], ?_⟩
    intro x hx hxb
    have h1 : (a.length : Int) + 1 ≤ rfindChar x (a ++ t :: b) := by
      have := rfind_ge_append x (a ++ [t]) b hx
      simpa [List.append_assoc] using this
    have h2 : rfindChar x (a ++ t :: b) ≤ lastBreakPos (a ++ t :: b) :=
      foldl_lbStep_bound _ sentence_breaks (-1) x hxb
    rw [lastBreakPos, h0] at h2
    omega

/-! ## Lemmas about `split_text_by_tokens` -/

theorem sttGo_succ (maxT n : Nat) (rem : List Char) (hne : rem ≠ []) :
    sttGo maxT (n + 1) rem =
      if rem.length ≤ maxT then [rem.take maxT]
      else if lastBreakPos (rem.take maxT) = -1 then
        rem.take maxT :: sttGo maxT n (rem.drop maxT)
      else
        (rem.take maxT).take ((lastBreakPos (rem.take maxT) + 1).toNat) ::
          sttGo maxT n (rem.drop ((lastBreakPos (rem.take maxT) + 1).toNat)) := by
  cases rem with
  | nil => exact absurd rfl hne
  | cons c cs => rfl

theorem lastBreakPos_toNat_pos (w : List Char) (h : lastBreakPos w ≠ -1) :
    1 ≤ (lastBreakPos w + 1).toNat ∧
      (lastBreakPos w + 1).toNat ≤ w.length := by
  obtain ⟨a, br, rest, rfl, _, ha, _⟩ := lastBreakPos_decomp w h
  constructor
  · omega
  · have : (a ++ br :: rest).length = a.length + 1 + rest.length := by
      simp
      omega
    omega

theorem sttGo_flatten (maxT : Nat) (h1 : 1 ≤ maxT) :
    ∀ (fuel : Nat) (rem : List Char), rem.length < fuel →
      (sttGo maxT fuel rem).flatten = rem := by
  intro fuel
  induction fuel with
  | zero => intro rem h; omega
  | succ n ih =>
    intro rem h
    cases rem with
    | nil => simp [sttGo]
    | cons c cs =>
      rw [sttGo_succ maxT n (c :: cs) (by simp)]
      by_cases hlen : (c :: cs).length ≤ maxT
      · rw [if_pos hlen]
        simp [List.take_of_length_le hlen]
      · rw [if_neg hlen]
        have hlt : maxT < (c :: cs).length := by omega
        by_cases hb : lastBreakPos ((c :: cs).take maxT) = -1
        · rw [if_pos hb]
          have hd : ((c :: cs).drop maxT).length < n := by
            rw [List.length_drop]
            omega
          rw [List.flatten_cons, ih _ hd, List.take_append_drop]
        · rw [if_neg hb]
          set w := (c :: cs).take maxT with hw
          set k := (lastBreakPos w + 1).toNat with hk
          obtain ⟨hk1, hk2⟩ := lastBreakPos_toNat_pos w hb
          have hwlen : w.length = maxT := by
            rw [hw, List.length_take]
            omega
          have hkm : k ≤ maxT := by rw [← hwlen]; exact hk2
          have htk : w.take k = (c :: cs).take k := by
            rw [hw, List.take_take, min_eq_left hkm]
          have hd : ((c :: cs).drop k).length < n := by
            rw [List.length_drop]
            omega
          rw [List.flatten_cons, ih _ hd, htk, List.take_append_drop]

theorem split_text_by_tokens_flatten (text : List Char) (maxT : Nat) (h1 : 1 ≤ maxT) :
    (split_text_by_tokens text maxT).flatten = text :=
  sttGo_flatten maxT h1 (text.length + 1) text (by omega)

theorem take_append_cons {α : Type} (a : List α) (x : α) (r : List α) :
    (a ++ x :: r).take (a.length + 1) = a ++ [x] := by
  induction a with
  | nil => rfl
  | cons y ys ih => simp [List.take_succ_cons, ih]

theorem sttGo_boundary (maxT : Nat) (h1 : 1 ≤ maxT) :
    ∀ (fuel : Nat) (rem : List Char), rem.length < fuel →
      ∀ (pre : List (List Char)) (c : List Char) (post : List (List Char)),
        sttGo maxT fuel rem = pre ++ c :: post → post ≠ [] →
        (∃ x ∈ (c ++ post.flatten).take maxT, x ∈ sentence_breaks) →
        ∃ a br rest, (c ++ post.flatten).take maxT = a ++ br :: rest ∧
          br ∈ sentence_breaks ∧ c = a ++ [br] ∧ ∀ x ∈ rest, x ∉ sentence_breaks := by
  intro fuel
  induction fuel with
  | zero => intro rem h; omega
  | succ n ih =>
    intro rem h pre c post hsplit hpost hterm
    cases rem with
    | nil =>
      simp only [sttGo, List.isEmpty_nil, if_pos] at hsplit
      exact absurd hsplit.symm (by simp)
    | cons c0 cs =>
      rw [sttGo_succ maxT n (c0 :: cs) (by simp)] at hsplit
      by_cases hlen : (c0 :: cs).length ≤ maxT
      · rw [if_pos hlen] at hsplit
        cases pre with
        | nil =>
          simp only [List.nil_append, List.cons.injEq] at hsplit
          exact absurd hsplit.2.symm hpost
        | cons p pre' =>
          simp only [List.cons_append, List.cons.injEq] at hsplit
          exact absurd hsplit.2.symm (by simp)
      · rw [if_neg hlen] at hsplit
        have hlt : maxT < (c0 :: cs).length := by omega
        by_cases hb : lastBreakPos ((c0 :: cs).take maxT) = -1
        · rw [if_pos hb] at hsplit
          cases pre with
          | nil =>
            simp only [List.nil_append, List.cons.injEq] at hsplit
            obtain ⟨rfl, rfl⟩ := hsplit
            have hd : ((c0 :: cs).drop maxT).length < n := by
              rw [List.length_drop]
              omega
            have hfl : ((sttGo maxT n ((c0 :: cs).drop maxT)).flatten) = (c0 :: cs).drop maxT :=
              sttGo_flatten maxT h1 n _ hd
            rw [hfl, List.take_append_drop] at hterm
            obtain ⟨x, hx, hxb⟩ := hterm
            exact absurd hxb (lastBreakPos_neg1 _ hb x hx)
          | cons p pre' =>
            simp only [List.cons_append, List.cons.injEq] at hsplit
            exact ih ((c0 :: cs).drop maxT) (by rw [List.length_drop]; omega)
              pre' c post hsplit.2 hpost hterm
        · rw [if_neg hb] at hsplit
          set w := (c0 :: cs).take maxT with hw
          set k := (lastBreakPos w + 1).toNat with hk
          obtain ⟨hk1, hk2⟩ := lastBreakPos_toNat_pos w hb
          have hwlen : w.length = maxT := by
            rw [hw, List.length_take]
            omega
          have hkm : k ≤ maxT := by rw [← hwlen]; exact hk2
          cases pre with
          | nil =>
            simp only [List.nil_append, List.cons.injEq] at hsplit
            obtain ⟨rfl, rfl⟩ := hsplit
            have hd : ((c0 :: cs).drop k).length < n := by
              rw [List.length_drop]
              omega
            have hfl : ((sttGo maxT n ((c0 :: cs).drop k)).flatten) = (c0 :: cs).drop k :=
              sttGo_flatten maxT h1 n _ hd
            have htk : w.take k = (c0 :: cs).take k := by
              rw [hw, List.take_take, min_eq_left hkm]
            rw [hfl, htk, List.take_append_drop] at hterm ⊢
            obtain ⟨a, br, rest, hwdec, hbr, halen, hrest⟩ := lastBreakPos_decomp w hb
            have hka : k = a.length + 1 := by omega
            refine ⟨a, br, rest, hwdec, hbr, ?_, hrest⟩
            rw [← htk, hwdec, hka, take_append_cons]
          | cons p pre' =>
            simp only [List.cons_append, List.cons.injEq] at hsplit
            exact ih ((c0 :: cs).drop k) (by rw [List.length_drop]; omega)
              pre' c post hsplit.2 hpost hterm

/-! ## Lemmas about sentinel stripping -/

theorem contSent_cons : contSent = '/' :: ("/continue".toList) := by decide

theorem contSent_cons2 : contSent = '/' :: '/' :: ("continue".toList) := by decide

theorem contSent_len : contSent.length = 10 := by decide

theorem sentStrip_nil : sentStrip [] = [] := rfl

theorem sentStrip_cons (c : Char) (cs : List Char) :
    sentStrip (c :: cs) =
      if leadsWith contSent (c :: cs) then sentStrip (cs.drop 9)
      else c :: sentStrip cs := by
  simp only [sentStrip, contSent_cons, pyReplace_cons, List.nil_append]
  rw [show ("/continue".toList).length = 9 from by decide]

theorem ssOK_spec : ∀ (l : List Char), ssOK l = true →
    ∀ a b, l = a ++ '/' :: '/' :: b → leadsWith contSent ('/' :: '/' :: b) = true := by
  intro l
  induction l with
  | nil =>
    intro _ a b hab
    have := congrArg List.length hab
    simp at this
    omega
  | cons c1 tail ih =>
    intro h a b hab
    cases tail with
    | nil =>
      have := congrArg List.length hab
      simp at this
      omega
    | cons c2 rest =>
      simp only [ssOK, Bool.and_eq_true] at h
      cases a with
      | nil =>
        simp only [List.nil_append, List.cons.injEq] at hab
        obtain ⟨rfl, rfl, rfl⟩ := hab
        simpa using h.1
      | cons x a' =>
        simp only [List.cons_append, List.cons.injEq] at hab
        exact ih h.2 a' b hab.2

theorem leadsWith_drop (c : Char) (cs t0 : List Char)
    (ht0 : c :: cs = contSent ++ t0) : cs.drop 9 = t0 := by
  have h10 : (c :: cs).drop 10 = (contSent ++ t0).drop 10 := by rw [ht0]
  rw [List.drop_succ_cons, ← contSent_len, List.drop_left] at h10
  exact h10

theorem sentStrip_cons_inv : ∀ (n : Nat) (xs : List Char), xs.length ≤ n →
    ∀ d w, sentStrip xs = d :: w →
      ∃ k t, xs = sentRep k ++ d :: t ∧ leadsWith contSent (d :: t) = false ∧
        sentStrip t = w := by
  intro n
  induction n with
  | zero =>
    intro xs hl d w hs
    have hx : xs = [] := List.length_eq_zero.1 (Nat.le_zero.1 hl)
    subst hx
    simp [sentStrip_nil] at hs
  | succ n ih =>
    intro xs hl d w hs
    cases xs with
    | nil => simp [sentStrip_nil] at hs
    | cons c cs =>
      rw [sentStrip_cons] at hs
      by_cases hm : leadsWith contSent (c :: cs) = true
      · rw [if_pos hm] at hs
        obtain ⟨t0, ht0⟩ := (leadsWith_iff _ _).1 hm
        have hdrop : cs.drop 9 = t0 := leadsWith_drop c cs t0 ht0
        have hlen : t0.length ≤ n := by
          have h1 := congrArg List.length ht0
          simp only [List.length_cons, List.length_append, contSent_len] at h1
          simp only [List.length_cons] at hl
          omega
        rw [hdrop] at hs
        obtain ⟨k, t, hxs, hlead, hw⟩ := ih t0 hlen d w hs
        refine ⟨k + 1, t, ?_, hlead, hw⟩
        rw [ht0, hxs, sentRep, List.append_assoc]
      · rw [if_neg hm] at hs
        simp only [List.cons.injEq] at hs
        obtain ⟨rfl, hw⟩ := hs
        exact ⟨0, cs, by simp [sentRep], by simpa using hm, hw⟩

theorem sentStrip_no_slashslash : ∀ (n : Nat) (xs : List Char), xs.length ≤ n →
    (∀ a b, xs = a ++ '/' :: '/' :: b → leadsWith contSent ('/' :: '/' :: b) = true) →
    ∀ a b, sentStrip xs ≠ a ++ '/' :: '/' :: b := by
  intro n
  induction n with
  | zero =>
    intro xs hl _ a b
    have hx : xs = [] := List.length_eq_zero.1 (Nat.le_zero.1 hl)
    subst hx
    rw [sentStrip_nil]
    intro hcontra
    have := congrArg List.length hcontra
    simp at this
    omega
  | succ n ih =>
    intro xs hl H a b hcontra
    cases xs with
    | nil =>
      rw [sentStrip_nil] at hcontra
      have := congrArg List.length hcontra
      simp at this
      omega
    | cons c cs =>
      rw [sentStrip_cons] at hcontra
      by_cases hm : leadsWith contSent (c :: cs) = true
      · rw [if_pos hm] at hcontra
        obtain ⟨t0, ht0⟩ := (leadsWith_iff _ _).1 hm
        have hdrop : cs.drop 9 = t0 := leadsWith_drop c cs t0 ht0
        have hlen : t0.length ≤ n := by
          have h1 := congrArg List.length ht0
          simp only [List.length_cons, List.length_append, contSent_len] at h1
          simp only [List.length_cons] at hl
          omega
        have Ht0 : ∀ a b, t0 = a ++ '/' :: '/' :: b →
            leadsWith contSent ('/' :: '/' :: b) = true := by
          intro a2 b2 hab
          exact H (contSent ++ a2) b2 (by rw [ht0, hab, List.append_assoc])
        rw [hdrop] at hcontra
        exact ih t0 hlen Ht0 a b hcontra
      · rw [if_neg hm] at hcontra
        have Hcs : ∀ a b, cs = a ++ '/' :: '/' :: b →
            leadsWith contSent ('/' :: '/' :: b) = true := by
          intro a2 b2 hab
          exact H (c :: a2) b2 (by rw [hab]; rfl)
        cases a with
        | nil =>
          simp only [List.nil_append, List.cons.injEq] at hcontra
          obtain ⟨rfl, htail⟩ := hcontra
          obtain ⟨k, t, hxs, _, _⟩ :=
            sentStrip_cons_inv cs.length cs le_rfl '/' b htail
          have hhead : ∃ z, cs = '/' :: z := by
            cases k with
            | zero => exact ⟨t, by simpa [sentRep] using hxs⟩
            | succ k' =>
              refine ⟨("/continue".toList) ++ (sentRep k' ++ '/' :: t), ?_⟩
              rw [hxs, sentRep, contSent_cons]
              simp [List.append_assoc]
          obtain ⟨z, hz⟩ := hhead
          have hlead := H [] z (by rw [hz]; rfl)
          rw [← hz] at hlead
          exact absurd hlead hm
        | cons x a' =>
          simp only [List.cons_append, List.cons.injEq] at hcontra
          exact ih cs (by simp only [List.length_cons] at hl; omega) Hcs a' b hcontra.2

/-! ## Lemmas about the continuation loop -/

theorem loopGo_calls_le (svc : GptSvc) (code : List Char) :
    ∀ (rem idx : Nat) (resps : List (List Char)),
      (loopGo svc code rem idx resps).2 ≤ rem := by
  intro rem
  induction rem with
  | zero => intro idx resps; simp [loopGo]
  | succ n ih =>
    intro idx resps
    simp only [loopGo]
    by_cases h1 : containsSub contSent (resps.getLastD []) = true
    · rw [if_pos h1]
      by_cases h2 : (svc code idx).finish_reason = stopReason
      · rw [if_pos h2]
        have hle := ih (idx + 1) (resps ++ [(svc code idx).content])
        show (loopGo svc code n (idx + 1) (resps ++ [(svc code idx).content])).2 + 1 ≤ n + 1
        omega
      · rw [if_neg h2]
        show 1 ≤ n + 1
        omega
    · rw [if_neg h1]
      show 0 ≤ n + 1
      omega

theorem multi_run_fail_first (svc : GptSvc) (code : List Char)
    (h : (svc code 0).finish_reason ≠ stopReason) :
    add_doxygen_multi_run svc code = (none, 1) := by
  simp only [add_doxygen_multi_run]
  rw [if_neg h]

theorem loopGo_no_sentinel (svc : GptSvc) (code : List Char)
    (rem idx : Nat) (resps : List (List Char))
    (h : containsSub contSent (resps.getLastD []) = false) :
    loopGo svc code rem idx resps = (some resps, 0) := by
  cases rem with
  | zero => rfl
  | succ n =>
    simp only [loopGo]
    rw [if_neg (by intro hc; rw [hc] at h; exact Bool.noConfusion h)]

theorem multi_run_first_complete (svc : GptSvc) (code : List Char)
    (h : (svc code 0).finish_reason = stopReason)
    (h2 : containsSub contSent (svc code 0).content = false) :
    add_doxygen_multi_run svc code =
      (some (mergeResponses [(svc code 0).content]), 1) := by
  simp only [add_doxygen_multi_run]
  rw [if_pos h, loopGo_no_sentinel svc code 5 1 [(svc code 0).content] (by
    rw [show ([(svc code 0).content].getLastD []) = (svc code 0).content from rfl]
    exact h2)]
  rfl

theorem add_multi_calls_le (svc : GptSvc) (code : List Char) :
    (add_doxygen_multi_run svc code).2 ≤ 6 := by
  simp only [add_doxygen_multi_run]
  by_cases h : (svc code 0).finish_reason = stopReason
  · rw [if_pos h]
    have hle := loopGo_calls_le svc code 5 1 [(svc code 0).content]
    show (loopGo svc code 5 1 [(svc code 0).content]).2 + 1 ≤ 6
    omega
  · rw [if_neg h]
    show 1 ≤ 6
    omega

/-! ## Lemmas about the output-path derivation -/

theorem dothsuffix_step (c : Char) (cs : List Char)
    (h1 : leadsWith ('.' :: 'h' :: []) (c :: cs) = false) :
    leadsWith ('.' :: 'h' :: []) (c :: (cs ++ ('.' :: 'h' :: []))) = false := by
  cases cs with
  | nil => simp [leadsWith]
  | cons d cs' =>
    simp only [leadsWith, List.cons_append, Bool.and_eq_false_imp] at h1 ⊢
    simpa using h1

theorem pyReplace_dothsuffix : ∀ (stem : List Char),
    containsSub (".h".toList) stem = false →
      pyReplace (".h".toList) ("_doxygen.h".toList) (stem ++ (".h".toList)) =
        stem ++ ("_doxygen.h".toList) := by
  have hdoth : (".h".toList) = '.' :: 'h' :: [] := by decide
  intro stem
  induction stem with
  | nil => intro _; decide
  | cons c cs ih =>
    intro h
    have hsplit : leadsWith (".h".toList) (c :: cs) = false ∧
        containsSub (".h".toList) cs = false := by
      have hh : (leadsWith (".h".toList) (c :: cs) || containsSub (".h".toList) cs) = false := h
      constructor
      · cases hx : leadsWith (".h".toList) (c :: cs) with
        | false => rfl
        | true => rw [hx] at hh; simp at hh
      · cases hx : containsSub (".h".toList) cs with
        | false => rfl
        | true => rw [hx, Bool.or_true] at hh; simp at hh
    have hlead : leadsWith ('.' :: 'h' :: []) (c :: (cs ++ ('.' :: 'h' :: []))) = false :=
      dothsuffix_step c cs (by rw [← hdoth]; exact hsplit.1)
    calc pyReplace (".h".toList) ("_doxygen.h".toList) ((c :: cs) ++ (".h".toList))
        = pyReplace ('.' :: 'h' :: []) ("_doxygen.h".toList)
            (c :: (cs ++ ('.' :: 'h' :: []))) := by rw [← hdoth]; rfl
      _ = c :: pyReplace ('.' :: 'h' :: []) ("_doxygen.h".toList)
            (cs ++ ('.' :: 'h' :: [])) := by
            rw [pyReplace_cons, if_neg (by simp [hlead])]
      _ = c :: (cs ++ ("_doxygen.h".toList)) := by
            rw [← hdoth, ih hsplit.2]
      _ = (c :: cs) ++ ("_doxygen.h".toList) := rfl

/-! ## Reconstruction for `split_cpp_file` -/

theorem split_cpp_reconstruct (content : List Char) (m : Nat)
    (h1 : (firstLine content).length + 1 ≤ m) (h2 : rbrace ∉ firstLine content) :
    joinNl (split_cpp_file content m) = content := by
  cases hsp : splitNl content with
  | nil => exact absurd hsp (splitNl_ne_nil content)
  | cons l0 rest =>
    have hfl : firstLine content = l0 := by rw [firstLine, hsp]; rfl
    rw [hfl] at h1 h2
    have hcond : ¬(0 + (l0.length + 1) > m ∨ rbrace ∈ l0) := by
      push_neg
      exact ⟨by omega, h2⟩
    have hstep : split_cpp_file content m = sccLoop m [l0] (l0.length + 1) rest := by
      rw [split_cpp_file, hsp]
      simp only [sccLoop]
      rw [if_neg hcond]
      simp
    have hgrp := sccLoop_eq_groups m rest [l0] (l0.length + 1)
    have hjoin := sccGroupsLoop_join m rest [l0] (l0.length + 1)
    have hne : ∀ g ∈ sccGroupsLoop m [l0] (l0.length + 1) rest, g ≠ [] :=
      sccGroupsLoop_ne_nil m rest [l0] (l0.length + 1) (by simp)
    have hgne : sccGroupsLoop m [l0] (l0.length + 1) rest ≠ [] := by
      intro hnil
      rw [hnil] at hjoin
      simp at hjoin
    rw [hstep, hgrp, joinNl_map_join _ hgne hne, hjoin,
      show [l0] ++ rest = l0 :: rest from rfl, ← hsp, joinNl_splitNl]

/-! ## Claims -/

/-- C1, counterexample: for the one-line document consisting of a single
closing brace, `split_cpp_file` emits an empty first chunk, so rejoining
the chunks on the newline separator yields an extra leading newline and
does not reproduce the document. -/
theorem C1_noloss_cex :
    joinNl (split_cpp_file (("\x7d").toList) 100) = (("\n\x7d").toList) ∧
    (("\n\x7d").toList) ≠ (("\x7d").toList) := by
  constructor
  · decide
  · decide

/-- C1, amended: rejoining `split_cpp_file`'s chunks with the newline
separator reproduces the document whenever the first line fits the bound
(its length plus one is at most the bound) and contains no closing brace
(otherwise an empty first chunk is emitted and one newline is added); and
concatenating `split_text_by_tokens`'s chunks reproduces the document
exactly, for every document and every bound of at least one token. -/
theorem C1_noloss :
    (∀ (file_content : List Char) (max_length : Nat),
        (firstLine file_content).length + 1 ≤ max_length →
        rbrace ∉ firstLine file_content →
        joinNl (split_cpp_file file_content max_length) = file_content) ∧
    (∀ (text : List Char) (max_tokens : Nat), 1 ≤ max_tokens →
        (split_text_by_tokens text max_tokens).flatten = text) :=
  ⟨fun content m h1 h2 => split_cpp_reconstruct content m h1 h2,
   fun text mt h => split_text_by_tokens_flatten text mt h⟩

/-- C1, witness: the amended no-loss statement at concrete inputs. -/
theorem C1_noloss_witness :
    ((firstLine (("ab\ncd").toList)).length + 1 ≤ 10 ∧
      rbrace ∉ firstLine (("ab\ncd").toList) ∧
      joinNl (split_cpp_file (("ab\ncd").toList) 10) = (("ab\ncd").toList)) ∧
    (1 ≤ 4 ∧
      (split_text_by_tokens (("hi.yo").toList) 4).flatten = (("hi.yo").toList)) :=
  ⟨⟨by decide, by decide, C1_noloss.1 _ 10 (by decide) (by decide)⟩,
   ⟨by decide, C1_noloss.2 _ 4 (by decide)⟩⟩

/-- C2, counterexample: in the pdf cleaner, a service call that raises an
exception does not abort the document: the original chunk text is
substituted and the output file is still written (here with the original
text), contradicting the all-or-nothing-write claim. -/
theorem C2_allornothing_cex :
    pdf_cleaner_main (fun _ => none) (("hello.").toList) 10 =
      some (("hello.").toList) ∧
    pdf_cleaner_main (fun _ => none) (("hello.").toList) 10 ≠ none := by
  constructor
  · decide
  · decide

/-- C2, amended: in the doc writer, a failed transform leaves no output
file: when `add_doxygen_multi` returns nothing — in particular whenever
the first service call ends with a non-`'stop'` finish reason —
`process_cpp_file` writes nothing.  (In the pdf cleaner the counterexample
shows the output file is written even when every service call raises.) -/
theorem C2_allornothing :
    (∀ (svc : GptSvc) (cpp_code : List Char),
        add_doxygen_multi svc (clean_code_content cpp_code) = none →
        process_cpp_file svc cpp_code = none) ∧
    (∀ (svc : GptSvc) (cpp_code : List Char),
        (svc (clean_code_content cpp_code) 0).finish_reason ≠ stopReason →
        process_cpp_file svc cpp_code = none) := by
  constructor
  · intro svc code h
    simp only [process_cpp_file, h]
  · intro svc code h
    have hm : add_doxygen_multi svc (clean_code_content code) = none := by
      rw [add_doxygen_multi, multi_run_fail_first _ _ h]
    simp only [process_cpp_file, hm]

/-- C2, witness: with a service stub that always reports `'length'`, no
output is written for a concrete file. -/
theorem C2_allornothing_witness :
    (svcLen (clean_code_content (("x").toList)) 0).finish_reason ≠ stopReason ∧
    process_cpp_file svcLen (("x").toList) = none :=
  ⟨by decide, C2_allornothing.2 svcLen _ (by decide)⟩

/-- C3, counterexample: with a service whose very first response has
`finish_reason = 'length'`, `add_doxygen_multi` returns nothing (an error)
after exactly one call: no continuation request is issued, so the
length-exhausted signal is fatal rather than recoverable. -/
theorem C3_length_cex :
    add_doxygen_multi svcLen (("void f();").toList) = none ∧
    (add_doxygen_multi_run svcLen (("void f();").toList)).2 = 1 := by
  constructor
  · decide
  · decide

/-- C3, amended: a non-`'stop'` finish reason (including `'length'`) on
the first call is fatal: `add_doxygen_multi` returns nothing after that
single call and issues no continuation request; conversely, the
continuation loop is driven solely by the textual `'//continue'` sentinel:
a `'stop'`-finished first reply without the sentinel also ends the run
after one call, returning the merged reply. -/
theorem C3_length_fatal :
    (∀ (svc : GptSvc) (code_content : List Char),
        (svc code_content 0).finish_reason ≠ stopReason →
        add_doxygen_multi_run svc code_content = (none, 1)) ∧
    (∀ (svc : GptSvc) (code_content : List Char),
        (svc code_content 0).finish_reason = stopReason →
        containsSub contSent (svc code_content 0).content = false →
        add_doxygen_multi_run svc code_content =
          (some (mergeResponses [(svc code_content 0).content]), 1)) :=
  ⟨fun svc code h => multi_run_fail_first svc code h,
   fun svc code h h2 => multi_run_first_complete svc code h h2⟩

/-- C3, witness: both halves of the amended statement at stub services. -/
theorem C3_length_fatal_witness :
    ((svcLen (("c").toList) 0).finish_reason ≠ stopReason ∧
      add_doxygen_multi_run svcLen (("c").toList) = (none, 1)) ∧
    ((svcDone (("c").toList) 0).finish_reason = stopReason ∧
      containsSub contSent (svcDone (("c").toList) 0).content = false ∧
      add_doxygen_multi_run svcDone (("c").toList) =
        (some (mergeResponses [(svcDone (("c").toList) 0).content]), 1)) :=
  ⟨⟨by decide, C3_length_fatal.1 svcLen _ (by decide)⟩,
   ⟨by decide, by decide, C3_length_fatal.2 svcDone _ (by decide) (by decide)⟩⟩

/-- C4: for every service behaviour the continuation loop of
`add_doxygen_multi` terminates after at most `max_iter + 1 = 6` service
calls in total (one initial call plus at most five continuations), and a
stub service that always signals incompleteness via the sentinel attains
exactly six calls. -/
theorem C4_termination :
    (∀ (svc : GptSvc) (code_content : List Char),
        (add_doxygen_multi_run svc code_content).2 ≤ 6) ∧
    (add_doxygen_multi_run svcAlwaysContinue (("c").toList)).2 = 6 :=
  ⟨fun svc code => add_multi_calls_le svc code, by decide⟩

/-- C5, counterexample: a fragment containing the sentinel in a
splice-prone position (`'//cont//continueinue'`) survives the single-pass
strip: the assembled output of `add_doxygen_multi` still contains the
sentinel `'//continue'`. -/
theorem C5_sentinel_cex :
    add_doxygen_multi svcEcho (("code").toList) =
      some (("//continue\ndone").toList) ∧
    containsSub contSent (("//continue\ndone").toList) = true := by
  constructor
  · decide
  · decide

/-- C5, amended: the single `str.replace` pass removes every sentinel
occurrence present in the merged, fence-stripped text, but deleting an
occurrence can splice the surrounding text into a new occurrence that
survives; the assembled output is sentinel-free whenever every occurrence
of two consecutive slashes in the fence-stripped joined fragments starts a
full `'//continue'` occurrence. -/
theorem C5_sentinel_stripped (response_list : List (List Char))
    (h : ssOK (preStripped response_list) = true) :
    containsSub contSent (mergeResponses response_list) = false := by
  cases hc : containsSub contSent (mergeResponses response_list) with
  | false => rfl
  | true =>
    exfalso
    obtain ⟨a, b, hab⟩ := containsSub_exists _ _ hc
    have hmerge : mergeResponses response_list =
        sentStrip (preStripped response_list) := rfl
    rw [hmerge, contSent_cons2] at hab
    have hab2 : sentStrip (preStripped response_list) =
        a ++ '/' :: '/' :: (("continue".toList) ++ b) := by
      rw [hab]
      simp
    exact sentStrip_no_slashslash (preStripped response_list).length _ le_rfl
      (ssOK_spec _ h) a _ hab2

/-- C5, witness: a fragment that carries the sentinel at its end yields a
sentinel-free assembled output. -/
theorem C5_sentinel_stripped_witness :
    ssOK (preStripped [("abc//continue").toList]) = true ∧
    containsSub contSent (mergeResponses [("abc//continue").toList]) = false :=
  ⟨by decide, C5_sentinel_stripped _ (by decide)⟩

/-- C6, counterexample: on the three-line example document with bound 20,
`split_cpp_file` does not produce the chunks claimed (the cut falls before
the closing-brace line, not after it, and chunks carry no trailing
newlines of their own). -/
theorem C6_brace_cut_cex :
    split_cpp_file (("void f() \x7b\n  return;\n\x7d\n").toList) 20 ≠
      [("void f() \x7b\n").toList, ("  return;\n\x7d\n").toList] := by decide

/-- C6, amended: when the scanned line contains the closing brace, the
accumulated chunk is flushed BEFORE that line, which starts the next
chunk; on the example document with bound 20 the chunks are
`'void f() {'`, `'  return;'` and `'}'` followed by the trailing empty
line (joined as one chunk). -/
theorem C6_brace_cut :
    split_cpp_file (("void f() \x7b\n  return;\n\x7d\n").toList) 20 =
      [("void f() \x7b").toList, ("  return;").toList, ("\x7d\n").toList] := by
  decide

/-- C7, counterexample: under the prose policy a single ten-character
sentence with no terminator and bound 5 is hard-cut into two chunks, and
neither chunk contains the sentence whole — the oversize atomic unit IS
split. -/
theorem C7_oversize_cex :
    split_text_by_tokens (List.replicate 10 'a') 5 =
      [List.replicate 5 'a', List.replicate 5 'a'] ∧
    containsSub (List.replicate 10 'a') (List.replicate 5 'a') = false := by
  constructor
  · decide
  · decide

/-- C7, amended: under the code/line policy lines are atomic: the chunks
of `split_cpp_file` are the newline-joins of consecutive line groups whose
concatenation is exactly the document's line list, so any line — oversize
or not — lands whole inside exactly one chunk, never split, truncated or
dropped.  (Under the prose policy the counterexample shows an oversize
sentence being split.) -/
theorem C7_line_atomic :
    ∀ (file_content : List Char) (max_length : Nat),
      ∃ groups : List (List (List Char)),
        split_cpp_file file_content max_length = groups.map joinNl ∧
        groups.flatten = splitNl file_content := by
  intro content m
  refine ⟨sccGroups content m, sccLoop_eq_groups m (splitNl content) [] 0, ?_⟩
  rw [sccGroups, sccGroupsLoop_join m (splitNl content) [] 0]
  rfl

/-- C8: for every non-final chunk of `split_text_by_tokens` whose window
(the first `max_tokens` tokens of the remaining text) contains a
sentence-terminal character, the cut is placed immediately after the LAST
such terminator in the window: the chunk is the window up to and including
a terminator, and the rest of the window holds no terminator. -/
theorem C8_boundary (text : List Char) (max_tokens : Nat) (h1 : 1 ≤ max_tokens)
    (pre : List (List Char)) (c : List Char) (post : List (List Char))
    (hsplit : split_text_by_tokens text max_tokens = pre ++ c :: post)
    (hpost : post ≠ [])
    (hterm : ∃ x ∈ (c ++ post.flatten).take max_tokens, x ∈ sentence_breaks) :
    ∃ a br rest, (c ++ post.flatten).take max_tokens = a ++ br :: rest ∧
      br ∈ sentence_breaks ∧ c = a ++ [br] ∧ ∀ x ∈ rest, x ∉ sentence_breaks :=
  sttGo_boundary max_tokens h1 (text.length + 1) text (by omega)
    pre c post hsplit hpost hterm

/-- C8, witness: the boundary-placement statement at a concrete prose
document. -/
theorem C8_boundary_witness :
    (1 ≤ 5 ∧
      split_text_by_tokens (("ab.cd.ef").toList) 5 =
        [] ++ (("ab.").toList) :: [("cd.ef").toList] ∧
      ([("cd.ef").toList] : List (List Char)) ≠ [] ∧
      (∃ x ∈ ((("ab.").toList) ++ ([("cd.ef").toList]).flatten).take 5,
        x ∈ sentence_breaks)) ∧
    (∃ a br rest,
      ((("ab.").toList) ++ ([("cd.ef").toList]).flatten).take 5 =
        a ++ br :: rest ∧
      br ∈ sentence_breaks ∧ (("ab.").toList) = a ++ [br] ∧
      ∀ x ∈ rest, x ∉ sentence_breaks) :=
  ⟨⟨by decide, by decide, by decide, by decide⟩,
   C8_boundary (("ab.cd.ef").toList) 5 (by decide) [] (("ab.").toList)
     [("cd.ef").toList] (by decide) (by decide) (by decide)⟩

/-- C9, counterexample: for the input path `'a.h.h'`, the derivation
replaces EVERY occurrence of `'.h'`, giving `'a_doxygen.h_doxygen.h'`
instead of replacing only the trailing suffix (`'a.h_doxygen.h'`). -/
theorem C9_path_cex :
    derive_output_path (("a.h.h").toList) = (("a_doxygen.h_doxygen.h").toList) ∧
    derive_output_path (("a.h.h").toList) ≠ (("a.h_doxygen.h").toList) := by
  constructor
  · decide
  · decide

/-- C9, amended: the derivation replaces every occurrence of `'.h'`
left-to-right; when `'.h'` occurs in the path only as the trailing suffix,
the result is the unchanged stem followed by `'_doxygen.h'`. -/
theorem C9_path (stem : List Char)
    (h : containsSub (".h".toList) stem = false) :
    derive_output_path (stem ++ (".h".toList)) =
      stem ++ ("_doxygen.h".toList) :=
  pyReplace_dothsuffix stem h

/-- C9, witness: the suffix derivation at a concrete clean stem. -/
theorem C9_path_witness :
    containsSub (".h".toList) (("foo").toList) = false ∧
    derive_output_path ((("foo").toList) ++ (".h".toList)) =
      (("foo").toList) ++ ("_doxygen.h").toList :=
  ⟨by decide, C9_path _ (by decide)⟩

/-- C10: `process_cpp_file` submits `clean_code_content` of the loaded
document to the service, so whenever the document is not a fixed point of
the normalization the submitted text differs from the original; the
normalization collapses space/tab runs to one space, normalizes
whitespace around braces to single surrounding spaces, removes blank
lines, and strips every line, as the concrete evaluations show. -/
theorem C10_normalization :
    (∀ (cpp_code : List Char),
        clean_code_content cpp_code ≠ cpp_code →
        process_sent_text cpp_code ≠ cpp_code) ∧
    clean_code_content (("a \t b").toList) = (("a b").toList) ∧
    clean_code_content (("x\x7by").toList) = (("x \x7b y").toList) ∧
    clean_code_content (("a\n\n\nb").toList) = (("a\nb").toList) ∧
    clean_code_content (("  a  \nb").toList) = (("a\nb").toList) :=
  ⟨fun _ h => h, by decide, by decide, by decide, by decide⟩

/-- C10, witness: a concrete non-normalized document whose submitted text
differs from the original. -/
theorem C10_normalization_witness :
    clean_code_content (("a  b").toList) ≠ (("a  b").toList) ∧
    process_sent_text (("a  b").toList) ≠ (("a  b").toList) :=
  ⟨by decide, C10_normalization.1 _ (by decide)⟩
